import Mathlib

/-!
# Verification of `examples/tinygpt.py`

A shallow embedding of the tiny character-level GPT example: the custom
cross-entropy loss, the attention head's causal mask and softmax, the batch
sampler, the vocabulary encode/decode, the autoregressive generator, and the
training-loop evaluation schedule.  Machine floats are modelled as real
numbers; tensors become functions out of `Fin`-indexed shapes; the random
draws consumed by the program are passed in explicitly as streams of reals.
-/

namespace TinyGPT

/-! ## Tensor primitives

`softmax` and `log_softmax` over the last axis.
Modelled from the spec: "apply softmax over the last axis" and
"log-softmax is applied to logits" (tinygrad `Tensor.softmax` /
`Tensor.log_softmax`, which are not part of the example file itself). -/

/-- Modelled from the spec: softmax over a length-`V` axis,
`softmax x j = exp (x j) / Σ k, exp (x k)`. -/
noncomputable def softmax {V : ℕ} (x : Fin V → ℝ) : Fin V → ℝ :=
  fun j => Real.exp (x j) / ∑ k, Real.exp (x k)

/-- Modelled from the spec: log-softmax over a length-`V` axis,
`log_softmax x j = x j - log (Σ k, exp (x k))`. -/
noncomputable def log_softmax {V : ℕ} (x : Fin V → ℝ) : Fin V → ℝ :=
  fun j => x j - Real.log (∑ k, Real.exp (x k))

/-! ## The custom cross-entropy (`cross_entropy`, tinygpt.py lines 44-52)

The Python code flattens the `(B, T)` target tensor `Y` to a vector `YY` of
length `B*T`, builds a `(B*T, C)` array `y` that is `-C` at `(n, YY n)` and
`0` elsewhere, reshapes `y` back to `(B, T, C)` (row-major, so flat row `n`
corresponds to `(n / T, n % T)` and `(b, t)` corresponds to row `b*T + t`),
multiplies element-wise with `out` and takes the mean over all `B*T*C`
entries. -/

/-- Row-major flat index of `(b, t)` in a `(B, T)` shape (the layout used by
`Y.numpy().flatten()` and by `y.reshape(list(Y.shape)+[num_classes])`). -/
def flatIdx {B T : ℕ} (b : Fin B) (t : Fin T) : Fin (B * T) :=
  ⟨b.val * T + t.val, by
    have h1 : b.val * T + t.val < (b.val + 1) * T := by
      rw [Nat.succ_mul]; exact Nat.add_lt_add_left t.isLt _
    exact lt_of_lt_of_le h1 (Nat.mul_le_mul_right T (Nat.succ_le_of_lt b.isLt))⟩

/-- First coordinate of the row-major unflattening of `n : Fin (B*T)`. -/
def unflatB {B T : ℕ} (n : Fin (B * T)) : Fin B :=
  ⟨n.val / T, by
    have hlt := n.isLt
    have hT : 0 < T := by
      rcases Nat.eq_zero_or_pos T with h | h
      · subst h; simp at hlt
      · exact h
    exact (Nat.div_lt_iff_lt_mul hT).mpr hlt⟩

/-- Second coordinate of the row-major unflattening of `n : Fin (B*T)`. -/
def unflatT {B T : ℕ} (n : Fin (B * T)) : Fin T :=
  ⟨n.val % T, by
    have hlt := n.isLt
    have hT : 0 < T := by
      rcases Nat.eq_zero_or_pos T with h | h
      · subst h; simp at hlt
      · exact h
    exact Nat.mod_lt _ hT⟩

/-- `YY = Y.numpy().flatten()` (line 47): the targets read off in row-major
flat order. -/
def flatY {B T C : ℕ} (Y : Fin B → Fin T → Fin C) : Fin (B * T) → Fin C :=
  fun n => Y (unflatB n) (unflatT n)

/-- The `(B*T, C)` array `y` built by lines 48-49: `np.zeros` followed by
`y[range(y.shape[0]), YY] = -1.0 * num_classes`. -/
def yFlat {B T C : ℕ} (Y : Fin B → Fin T → Fin C) : Fin (B * T) → Fin C → ℝ :=
  fun n j => if j = flatY Y n then -(C : ℝ) else 0

/-- Line 50: `y = y.reshape(list(Y.shape)+[num_classes])`, reading the flat
rows back in row-major `(B, T)` order. -/
def yReshaped {B T C : ℕ} (Y : Fin B → Fin T → Fin C) :
    Fin B → Fin T → Fin C → ℝ :=
  fun b t j => yFlat Y (flatIdx b t) j

/-- `cross_entropy(out, Y)` (lines 44-52): element-wise product of `out` with
the reshaped target array `y`, averaged over all `B*T*C` elements
(`out.mul(y).mean()`). -/
noncomputable def cross_entropy {B T C : ℕ} (out : Fin B → Fin T → Fin C → ℝ)
    (Y : Fin B → Fin T → Fin C) : ℝ :=
  (∑ b, ∑ t, ∑ j, out b t j * yReshaped Y b t j) / (B * T * C : ℕ)

/-! Spec-side definitions for claims C2 and C9. -/

/-- Following the spec's words: a one-hot-like target tensor holding `-C` at
each true-class position and `0` everywhere else, built directly in `(B,T,C)`
shape (no flatten/reshape round-trip). -/
def specTarget {B T C : ℕ} (Y : Fin B → Fin T → Fin C) :
    Fin B → Fin T → Fin C → ℝ :=
  fun b t j => if j = Y b t then -(C : ℝ) else 0

/-- Following the spec's words: the mean over all `B*T*C` elements of the
element-wise product of two `(B,T,C)` tensors. -/
noncomputable def meanMul {B T C : ℕ} (u v : Fin B → Fin T → Fin C → ℝ) : ℝ :=
  (∑ b, ∑ t, ∑ j, u b t j * v b t j) / (B * T * C : ℕ)

/-- The textbook mean negative log-likelihood of log-probabilities `out`
against integer targets `Y`: the mean over the `B*T` positions of
`-(out b t (Y b t))`. -/
noncomputable def meanNLL {B T C : ℕ} (out : Fin B → Fin T → Fin C → ℝ)
    (Y : Fin B → Fin T → Fin C) : ℝ :=
  (∑ b, ∑ t, -(out b t (Y b t))) / (B * T : ℕ)

lemma flatY_flatIdx {B T C : ℕ} (Y : Fin B → Fin T → Fin C)
    (b : Fin B) (t : Fin T) : flatY Y (flatIdx b t) = Y b t := by
  have hdiv : (b.val * T + t.val) / T = b.val := by
    rw [Nat.add_comm, Nat.add_mul_div_right _ _ t.pos,
      Nat.div_eq_of_lt t.isLt, Nat.zero_add]
  have hmod : (b.val * T + t.val) % T = t.val := by
    rw [Nat.add_comm, Nat.add_mul_mod_self_right, Nat.mod_eq_of_lt t.isLt]
  unfold flatY unflatB unflatT flatIdx
  congr 1 <;> apply Fin.ext <;> simp [hdiv, hmod]

lemma yReshaped_eq_specTarget {B T C : ℕ} (Y : Fin B → Fin T → Fin C) :
    yReshaped Y = specTarget Y := by
  funext b t j
  unfold yReshaped yFlat specTarget
  rw [flatY_flatIdx]

/-- **C2.** `cross_entropy(out, Y)` equals the mean over all elements of the
element-wise product of `out` with a target tensor holding `-C` at each
true-class position and `0` everywhere else. -/
theorem cross_entropy_eq_meanMul_specTarget {B T C : ℕ}
    (out : Fin B → Fin T → Fin C → ℝ) (Y : Fin B → Fin T → Fin C) :
    cross_entropy out Y = meanMul out (specTarget Y) := by
  unfold cross_entropy meanMul
  rw [yReshaped_eq_specTarget]

/-- **C9.** The implemented `cross_entropy` on log-softmax outputs equals the
standard mean negative log-likelihood exactly: the `-C` value stored at the
true-class position cancels against the averaging over the `C` class
positions. -/
theorem cross_entropy_eq_meanNLL {B T C : ℕ} (hC : 0 < C)
    (out : Fin B → Fin T → Fin C → ℝ) (Y : Fin B → Fin T → Fin C) :
    cross_entropy out Y = meanNLL out Y := by
  unfold meanNLL cross_entropy
  rw [yReshaped_eq_specTarget]
  unfold specTarget
  have hinner : ∀ (b : Fin B) (t : Fin T),
      (∑ j, out b t j * if j = Y b t then -(C : ℝ) else 0)
        = (C : ℝ) * -(out b t (Y b t)) := by
    intro b t
    rw [Finset.sum_eq_single (Y b t)]
    · simp; ring
    · intro j _ hj; simp [hj]
    · intro h; exact absurd (Finset.mem_univ _) h
  simp only [hinner, ← Finset.mul_sum]
  have hcast : ((B * T * C : ℕ) : ℝ) = (C : ℝ) * ((B * T : ℕ) : ℝ) := by
    push_cast; ring
  rw [hcast, mul_div_mul_left _ _ (by exact_mod_cast hC.ne' : (C : ℝ) ≠ 0)]

/-- Witness for C9 at `B = T = 1`, `C = 2`, `out = 0`, `Y = 0`. -/
theorem cross_entropy_eq_meanNLL_witness :
    0 < 2 ∧ cross_entropy (fun (_ : Fin 1) (_ : Fin 1) (_ : Fin 2) => (0 : ℝ))
      (fun _ _ => (0 : Fin 2))
        = meanNLL (fun (_ : Fin 1) (_ : Fin 1) (_ : Fin 2) => (0 : ℝ))
          (fun _ _ => (0 : Fin 2)) :=
  ⟨by decide, cross_entropy_eq_meanNLL (by decide) _ _⟩

/-! ## The attention head (`Head`, tinygpt.py lines 77-104)

`Head.__call__` projects the input with a single bias-free linear map
`to_kqv` to `3*head_size` features, reshapes to `(B, T, 3, head_size)` and
splits into `k` (slot 0), `q` (slot 1) and `v` (slot 2); attention scores are
`q @ k^T * n_embd**-0.5`; a mask built by `np.triu(ones*(-inf), k=1)` adds
`-inf` at every entry with key position strictly greater than query position;
softmax over the last axis follows.  The `-inf` entries are modelled by
`Option ℝ` with `none` for `-inf`, and `oexp` extends `exp` with
`exp (-inf) = 0`, which is exactly how IEEE softmax treats them. -/

/-- Index of slot `s ∈ {k,q,v}` and feature `h` after the
`reshape(B, T, 3, -1)` of a `3*hs` feature axis (row-major). -/
def kqvIdx {hs : ℕ} (s : Fin 3) (h : Fin hs) : Fin (3 * hs) :=
  ⟨s.val * hs + h.val, by
    have h1 : s.val * hs + h.val < (s.val + 1) * hs := by
      rw [Nat.succ_mul]; exact Nat.add_lt_add_left h.isLt _
    exact lt_of_lt_of_le h1 (Nat.mul_le_mul_right hs (Nat.succ_le_of_lt s.isLt))⟩

/-- Modelled from the spec: `nn.Linear(n_embd, 3*head_size, bias=False)`
applied position-wise, `to_kqv x = W · x` (line 86). -/
noncomputable def to_kqv {B T nEmbd hs : ℕ} (W : Fin (3 * hs) → Fin nEmbd → ℝ)
    (x : Fin B → Fin T → Fin nEmbd → ℝ) : Fin B → Fin T → Fin (3 * hs) → ℝ :=
  fun b t j => ∑ e, W j e * x b t e

/-- `k = kqv[:,:,0,:]` (line 90). -/
noncomputable def headK {B T nEmbd hs : ℕ} (W : Fin (3 * hs) → Fin nEmbd → ℝ)
    (x : Fin B → Fin T → Fin nEmbd → ℝ) : Fin B → Fin T → Fin hs → ℝ :=
  fun b t h => to_kqv W x b t (kqvIdx 0 h)

/-- `q = kqv[:,:,1,:]` (line 91). -/
noncomputable def headQ {B T nEmbd hs : ℕ} (W : Fin (3 * hs) → Fin nEmbd → ℝ)
    (x : Fin B → Fin T → Fin nEmbd → ℝ) : Fin B → Fin T → Fin hs → ℝ :=
  fun b t h => to_kqv W x b t (kqvIdx 1 h)

/-- `v = kqv[:,:,2,:]` (line 92). -/
noncomputable def headV {B T nEmbd hs : ℕ} (W : Fin (3 * hs) → Fin nEmbd → ℝ)
    (x : Fin B → Fin T → Fin nEmbd → ℝ) : Fin B → Fin T → Fin hs → ℝ :=
  fun b t h => to_kqv W x b t (kqvIdx 2 h)

/-- Attention scores `wei = q @ k.T * n_embd**-0.5` (line 95). -/
noncomputable def headScores {B T nEmbd hs : ℕ}
    (W : Fin (3 * hs) → Fin nEmbd → ℝ) (x : Fin B → Fin T → Fin nEmbd → ℝ) :
    Fin B → Fin T → Fin T → ℝ :=
  fun b t t' => (∑ h, headQ W x b t h * headK W x b t' h)
    * ((nEmbd : ℝ) ^ (-(1 / 2) : ℝ))

/-- `wei + mask` (lines 97-98): the `np.triu(ones*(-inf), k=1)` mask leaves
entries with `t' ≤ t` unchanged and sends entries with `t' > t` to `-inf`
(modelled as `none`). -/
noncomputable def maskedScores {B T nEmbd hs : ℕ}
    (W : Fin (3 * hs) → Fin nEmbd → ℝ) (x : Fin B → Fin T → Fin nEmbd → ℝ) :
    Fin B → Fin T → Fin T → Option ℝ :=
  fun b t t' => if t.val < t'.val then none else some (headScores W x b t t')

/-- `exp` extended to the masked entries: `oexp (-inf) = 0`, exactly the
value IEEE `exp` gives at `-inf`. -/
noncomputable def oexp : Option ℝ → ℝ
  | none => 0
  | some a => Real.exp a

/-- `wei = wei.softmax(-1)` after the mask (line 99): the attention weights
of one head. -/
noncomputable def attnWeights {B T nEmbd hs : ℕ}
    (W : Fin (3 * hs) → Fin nEmbd → ℝ) (x : Fin B → Fin T → Fin nEmbd → ℝ) :
    Fin B → Fin T → Fin T → ℝ :=
  fun b t t' => oexp (maskedScores W x b t t')
    / ∑ s, oexp (maskedScores W x b t s)

/-- **C1.** For every input `x` of shape `(B, T, nEmbd)` and every head
projection `W` (hence for every head of every layer), the attention weights
after the causal mask and softmax are exactly zero at every position
`(t, t')` with `t' > t`. -/
theorem attnWeights_eq_zero_of_future {B T nEmbd hs : ℕ}
    (W : Fin (3 * hs) → Fin nEmbd → ℝ) (x : Fin B → Fin T → Fin nEmbd → ℝ)
    (b : Fin B) (t t' : Fin T) (h : t.val < t'.val) :
    attnWeights W x b t t' = 0 := by
  unfold attnWeights maskedScores
  rw [if_pos h]
  show (0 : ℝ) / _ = 0
  exact zero_div _

/-- Witness for C1 at `B = 1`, `T = 2`, `nEmbd = hs = 1`, zero weights and
zero input, query position `0`, key position `1`. -/
theorem attnWeights_eq_zero_of_future_witness :
    (0 : Fin 2).val < (1 : Fin 2).val ∧
      attnWeights (fun (_ : Fin (3 * 1)) (_ : Fin 1) => (0 : ℝ))
        (fun (_ : Fin 1) (_ : Fin 2) (_ : Fin 1) => (0 : ℝ)) 0 0 1 = 0 :=
  ⟨by decide, attnWeights_eq_zero_of_future _ _ 0 0 1 (by decide)⟩

/-! ## The model loss (`GPTLanguageModel.__call__`, tinygpt.py lines 174-178)

When targets are supplied, the forward pass takes
`predictions = logits.log_softmax(-1)` and returns
`loss = cross_entropy(predictions, targets)`.  The logits produced by the
network at lines 162-170 are an arbitrary real-valued `(B, T, vocab_size)`
tensor, so the loss is quantified over all such logits.  In this embedding
the loss is a single real number by construction (a scalar, hence finite),
and the `(B, T)` targets are consumed at the matching type, so no shape
mismatch is expressible. -/

/-- Lines 176-177 of `GPTLanguageModel.__call__`: log-softmax the logits over
the vocabulary axis, then apply `cross_entropy` against the targets. -/
noncomputable def modelLoss {B T V : ℕ} (logits : Fin B → Fin T → Fin V → ℝ)
    (Y : Fin B → Fin T → Fin V) : ℝ :=
  cross_entropy (fun b t => log_softmax (logits b t)) Y

lemma log_softmax_nonpos {V : ℕ} (x : Fin V → ℝ) (j : Fin V) :
    log_softmax x j ≤ 0 := by
  unfold log_softmax
  have hS : Real.exp (x j) ≤ ∑ k, Real.exp (x k) :=
    Finset.single_le_sum (fun k _ => (Real.exp_pos (x k)).le) (Finset.mem_univ j)
  have hpos : (0 : ℝ) < ∑ k, Real.exp (x k) :=
    lt_of_lt_of_le (Real.exp_pos (x j)) hS
  have hlog : x j ≤ Real.log (∑ k, Real.exp (x k)) :=
    (Real.le_log_iff_exp_le hpos).mpr hS
  exact sub_nonpos.mpr hlog

/-- **C7.** For every valid batch (targets `Y : (B, T)` matching the logits'
leading shape), the loss of the model forward pass is a non-negative (hence
finite) real scalar. -/
theorem modelLoss_nonneg {B T V : ℕ} (logits : Fin B → Fin T → Fin V → ℝ)
    (Y : Fin B → Fin T → Fin V) : 0 ≤ modelLoss logits Y := by
  unfold modelLoss cross_entropy
  apply div_nonneg _ (Nat.cast_nonneg _)
  apply Finset.sum_nonneg; intro b _
  apply Finset.sum_nonneg; intro t _
  apply Finset.sum_nonneg; intro j _
  rw [yReshaped_eq_specTarget]
  unfold specTarget
  by_cases hj : j = Y b t
  · rw [if_pos hj]
    have h1 : (0 : ℝ) ≤ -(log_softmax (logits b t) j) * (V : ℝ) :=
      mul_nonneg (neg_nonneg.mpr (log_softmax_nonpos _ _)) (Nat.cast_nonneg _)
    nlinarith [h1]
  · rw [if_neg hj, mul_zero]

/-! ## The batch sampler (`get_batch`, tinygpt.py lines 68-74)

`ix = Tensor.uniform(batch_size, low=0, high=len(data)-block_size).cast(int32)`
draws `batch_size` uniform reals in `[0, L - block_size)` and truncates them
to integers; then `x[i] = data[ix[i] : ix[i]+block_size]` and
`y[i] = data[ix[i]+1 : ix[i]+block_size+1]`.  The token sequence is a
function `data : ℕ → ℤ` whose meaningful indices are `[0, L)`. -/

/-- Modelled from the spec: one draw of
`Tensor.uniform(low=0, high=L-blockSize).cast(int32)` — a uniform real
`r ∈ [0, 1)` scaled to `[0, L-blockSize)` and truncated to an integer. -/
noncomputable def uniformOffset (L blockSize : ℕ) (r : ℝ) : ℕ :=
  (⌊r * ((L - blockSize : ℕ) : ℝ)⌋).toNat

/-- `get_batch` (lines 72-73), given the sampled start offsets:
`x i t = data (offs i + t)` and `y i t = data (offs i + 1 + t)`. -/
def get_batch {batchSize : ℕ} (blockSize : ℕ) (data : ℕ → ℤ)
    (offs : Fin batchSize → ℕ) :
    (Fin batchSize → Fin blockSize → ℤ) ×
      (Fin batchSize → Fin blockSize → ℤ) :=
  (fun i t => data (offs i + t.val), fun i t => data (offs i + 1 + t.val))

lemma uniformOffset_lt (L blockSize : ℕ) (r : ℝ) (hL : blockSize < L)
    (h0 : 0 ≤ r) (h1 : r < 1) : uniformOffset L blockSize r < L - blockSize := by
  unfold uniformOffset
  have hm : (0 : ℝ) < ((L - blockSize : ℕ) : ℝ) := by
    have : 0 < L - blockSize := by omega
    exact_mod_cast this
  have hlt : r * ((L - blockSize : ℕ) : ℝ) < ((L - blockSize : ℕ) : ℝ) :=
    (mul_lt_iff_lt_one_left hm).mpr h1
  have hfl : ⌊r * ((L - blockSize : ℕ) : ℝ)⌋ < ((L - blockSize : ℕ) : ℤ) :=
    Int.floor_lt.mpr (by exact_mod_cast hlt)
  have hnn : 0 ≤ ⌊r * ((L - blockSize : ℕ) : ℝ)⌋ :=
    Int.floor_nonneg.mpr (mul_nonneg h0 hm.le)
  omega

/-- **C4.** For a token sequence of length `L > blockSize` and uniform draws
`r i ∈ [0, 1)`: every sampled start offset lies in `[0, L - blockSize)`,
every input (and shifted target) window is fully contained within the
sequence (`offset + blockSize < L`), and row `i` of the targets is row `i`
of the inputs shifted by exactly one position.  Both returned tensors have
shape `(batchSize, blockSize)` by construction. -/
theorem get_batch_spec {batchSize : ℕ} (L blockSize : ℕ) (data : ℕ → ℤ)
    (r : Fin batchSize → ℝ) (hL : blockSize < L)
    (hr : ∀ i, 0 ≤ r i ∧ r i < 1) :
    (∀ i, uniformOffset L blockSize (r i) < L - blockSize) ∧
    (∀ i, uniformOffset L blockSize (r i) + blockSize < L) ∧
    (∀ i t,
      (get_batch blockSize data (fun i => uniformOffset L blockSize (r i))).2 i t
        = data (uniformOffset L blockSize (r i) + t.val + 1)) ∧
    (∀ i (t : Fin blockSize) (ht : t.val + 1 < blockSize),
      (get_batch blockSize data (fun i => uniformOffset L blockSize (r i))).2 i t
        = (get_batch blockSize data
            (fun i => uniformOffset L blockSize (r i))).1 i ⟨t.val + 1, ht⟩) := by
  have hoff : ∀ i, uniformOffset L blockSize (r i) < L - blockSize :=
    fun i => uniformOffset_lt L blockSize (r i) hL (hr i).1 (hr i).2
  refine ⟨hoff, fun i => by have := hoff i; omega, fun i t => ?_, fun i t ht => ?_⟩
  · show data _ = data _
    congr 1
    show uniformOffset L blockSize (r i) + 1 + t.val
      = uniformOffset L blockSize (r i) + t.val + 1
    omega
  · show data _ = data _
    congr 1
    show uniformOffset L blockSize (r i) + 1 + t.val
      = uniformOffset L blockSize (r i) + (t.val + 1)
    omega

/-- Witness for C4 at `L = 20`, `blockSize = 16`, `batchSize = 1`,
`data = 0`, `r = 1/2`. -/
theorem get_batch_spec_witness :
    (16 < 20 ∧ (∀ i : Fin 1, 0 ≤ (fun _ : Fin 1 => (1/2 : ℝ)) i ∧
        (fun _ : Fin 1 => (1/2 : ℝ)) i < 1)) ∧
      (∀ i : Fin 1, uniformOffset 20 16 ((fun _ : Fin 1 => (1/2 : ℝ)) i) < 20 - 16) :=
  ⟨⟨by norm_num, fun _ => by norm_num⟩,
    (get_batch_spec 20 16 (fun _ => (0 : ℤ)) (fun _ : Fin 1 => (1/2 : ℝ))
      (by norm_num) (fun _ => by norm_num)).1⟩

/-! ## Vocabulary encode/decode (tinygpt.py lines 230-239)

`chars = sorted(list(set(text)))`, `stoi[ch] = i`, `itos[i] = ch`;
`encode` maps each character through `stoi` (a missing character is a
`KeyError`, modelled as `none`); `decode` maps each index through `itos`
(an out-of-range index likewise).  Characters are modelled by their
codepoints as naturals. -/

/-- `sorted(list(set(text)))` (line 230): the sorted deduplicated characters
of the corpus. -/
def chars (corpus : List ℕ) : List ℕ :=
  Finset.sort (· ≤ ·) corpus.toFinset

/-- `encode = lambda s: [stoi[c] for c in s]` (line 237); `stoi` maps a
character of `chars` to its index, and a character outside the vocabulary is
a fatal `KeyError` (`none`). -/
def encode (corpus : List ℕ) : List ℕ → Option (List ℕ)
  | [] => some []
  | c :: rest =>
      if c ∈ chars corpus then
        (encode corpus rest).map (fun es => (chars corpus).indexOf c :: es)
      else none

/-- `decode = lambda l: ''.join([itos[i] for i in l])` (line 239); `itos`
maps an index back to the character of `chars` at that index. -/
def decode (corpus : List ℕ) : List ℕ → Option (List ℕ)
  | [] => some []
  | i :: rest =>
      match (chars corpus).get? i with
      | some c => (decode corpus rest).map (fun cs => c :: cs)
      | none => none

lemma get_indexOf_of_mem {l : List ℕ} {c : ℕ} (h : c ∈ l) :
    l.get? (l.indexOf c) = some c := by
  have hlt : l.indexOf c < l.length := List.indexOf_lt_length.mpr h
  rw [List.get?_eq_get hlt]
  exact congrArg some (List.indexOf_get hlt)

/-- **C5.** For every text whose characters all occur in the corpus,
decoding the result of encoding it through the vocabulary mapping yields
the original text. -/
theorem decode_encode (corpus s : List ℕ) (h : ∀ c ∈ s, c ∈ corpus) :
    (encode corpus s).bind (decode corpus) = some s := by
  induction s with
  | nil => simp [encode, decode]
  | cons c rest ih =>
      have hmem : c ∈ chars corpus := by
        unfold chars
        rw [Finset.mem_sort]
        exact List.mem_toFinset.mpr (h c (by simp))
      have hrest : ∀ c' ∈ rest, c' ∈ corpus := fun c' hc' => h c' (by simp [hc'])
      rcases henc : encode corpus rest with _ | es
      · rw [henc] at ih
        simp at ih
        obtain ⟨x, hx, hnx⟩ := ih
        exact absurd (hrest x hx) hnx
      · rw [henc] at ih
        have hdec : decode corpus es = some rest := by
          simpa using ih hrest
        show (if c ∈ chars corpus then
            (encode corpus rest).map (fun es => (chars corpus).indexOf c :: es)
          else none).bind (decode corpus) = some (c :: rest)
        rw [if_pos hmem, henc]
        show decode corpus ((chars corpus).indexOf c :: es) = some (c :: rest)
        unfold decode
        rw [get_indexOf_of_mem hmem, hdec]
        rfl

/-- Witness for C5 with corpus `[7, 3, 5]` and text `[5, 3, 3, 7]`. -/
theorem decode_encode_witness :
    (∀ c ∈ [5, 3, 3, 7], c ∈ [7, 3, 5]) ∧
      (encode [7, 3, 5] [5, 3, 3, 7]).bind (decode [7, 3, 5])
        = some [5, 3, 3, 7] :=
  ⟨by decide, decode_encode [7, 3, 5] [5, 3, 3, 7] (by decide)⟩

/-! ## Positional indices as int8 (tinygpt.py line 166)

`Tensor.arange(T, dtype=dtypes.int8)` builds the positional indices
`0..T-1` in an 8-bit signed integer type whose values lie in `[-128, 127]`. -/

/-- Modelled from the spec: the two's-complement int8 value of a natural
number, `((n + 128) mod 256) - 128 ∈ [-128, 127]`. -/
def int8cast (n : ℕ) : ℤ :=
  (((n + 128) % 256 : ℕ) : ℤ) - 128

/-- Line 166: `Tensor.arange(T, dtype=dtypes.int8)` — each positional index
`i < T` stored as an int8 value (total: no error is raised). -/
def arangeInt8 (T : ℕ) : Fin T → ℤ :=
  fun i => int8cast i.val

/-- **C10.** The positional indices are faithfully representable exactly up
to `T ≤ 128`: for `T ≤ 128` every stored index equals its position, while
for any `T > 128` (as a `block_size > 128` would permit) some position is
stored as a value different from itself — the arange still produces a value
rather than failing fast. -/
theorem arangeInt8_faithful_iff (T : ℕ) :
    (T ≤ 128 → ∀ i : Fin T, arangeInt8 T i = (i.val : ℤ)) ∧
      (128 < T → ∃ i : Fin T, arangeInt8 T i ≠ (i.val : ℤ)) := by
  constructor
  · intro hT i
    have hi : i.val < 128 := lt_of_lt_of_le i.isLt hT
    unfold arangeInt8 int8cast
    have hmod : (i.val + 128) % 256 = i.val + 128 := Nat.mod_eq_of_lt (by omega)
    rw [hmod]
    push_cast
    ring
  · intro hT
    refine ⟨⟨128, hT⟩, ?_⟩
    unfold arangeInt8 int8cast
    norm_num

/-- Witness for C10: at `T = 129` position `128` is misrepresented, and at
`T = 100` every position is faithful. -/
theorem arangeInt8_faithful_iff_witness :
    (128 < 129 ∧ ∃ i : Fin 129, arangeInt8 129 i ≠ (i.val : ℤ)) ∧
      (100 ≤ 128 ∧ ∀ i : Fin 100, arangeInt8 100 i = (i.val : ℤ)) :=
  ⟨⟨by decide, (arangeInt8_faithful_iff 129).2 (by decide)⟩,
    ⟨by decide, (arangeInt8_faithful_iff 100).1 (by decide)⟩⟩

/-! ## The evaluation schedule (`estimate_loss` lines 54-65 and the training
loop lines 255-262)

`estimate_loss` sets `Tensor.training = False`, runs `eval_iters` batches on
each of the `train` and `val` splits, stores the numpy mean of each split's
losses, and sets `Tensor.training = True` before returning.  The main loop
sets `Tensor.training = True` and, for `iter` in `range(max_iters)`, calls
`estimate_loss` when `iter % eval_interval == 0 or iter == max_iters - 1`
before running one training step.  The per-batch loss is abstracted as an
oracle `batchLoss training split k` so that the mode the loss is computed
in (`Tensor.training`) is explicit. -/

inductive Split
  | train
  | val
deriving DecidableEq

/-- `estimate_loss` (lines 54-65): with `Tensor.training = False`, average
`eval_iters` batch losses per split (the numpy `mean`, modelled from the
spec as sum divided by count), then set `Tensor.training = True`.  Returns
`((train average, val average), Tensor.training afterwards)`. -/
noncomputable def estimate_loss (evalIters : ℕ)
    (batchLoss : Bool → Split → ℕ → ℝ) : (ℝ × ℝ) × Bool :=
  ((((Finset.range evalIters).sum (batchLoss false Split.train)) / evalIters,
    ((Finset.range evalIters).sum (batchLoss false Split.val)) / evalIters),
    true)

/-- One record of the training loop: the reported `(train, val)` averages of
the checkpoint, if any, and the value of `Tensor.training` when the
training step of this iteration runs. -/
structure IterRecord where
  report : Option (ℝ × ℝ)
  modeAtStep : Bool

/-- One iteration of the main loop (lines 260-271): run the checkpoint when
`iter % eval_interval == 0 or iter == max_iters - 1`, then take the training
step in the current mode. -/
noncomputable def trainIter (maxIters evalInterval evalIters : ℕ)
    (batchLoss : Bool → Split → ℕ → ℝ) (mode : Bool) (i : ℕ) :
    IterRecord × Bool :=
  if i % evalInterval = 0 ∨ i = maxIters - 1 then
    let r := estimate_loss evalIters batchLoss
    (⟨some r.1, r.2⟩, r.2)
  else
    (⟨none, mode⟩, mode)

/-- The iterations of the main loop threaded over the `Tensor.training`
flag. -/
noncomputable def runIters (maxIters evalInterval evalIters : ℕ)
    (batchLoss : Bool → Split → ℕ → ℝ) : List ℕ → Bool → List IterRecord
  | [], _ => []
  | i :: rest, mode =>
      let st := trainIter maxIters evalInterval evalIters batchLoss mode i
      st.1 :: runIters maxIters evalInterval evalIters batchLoss rest st.2

/-- The training loop (lines 255-271): `Tensor.training = True`, then
iterations `0, 1, ..., max_iters - 1`. -/
noncomputable def trainLoop (maxIters evalInterval evalIters : ℕ)
    (batchLoss : Bool → Split → ℕ → ℝ) : List IterRecord :=
  runIters maxIters evalInterval evalIters batchLoss (List.range maxIters) true

lemma runIters_get? (maxIters evalInterval evalIters : ℕ)
    (batchLoss : Bool → Split → ℕ → ℝ) (l : List ℕ) (n : ℕ) :
    (runIters maxIters evalInterval evalIters batchLoss l true).get? n
      = (l.get? n).map (fun i =>
          (trainIter maxIters evalInterval evalIters batchLoss true i).1) := by
  induction l generalizing n with
  | nil => simp [runIters]
  | cons i rest ih =>
      have hmode :
          (trainIter maxIters evalInterval evalIters batchLoss true i).2
            = true := by
        unfold trainIter estimate_loss
        by_cases hc : i % evalInterval = 0 ∨ i = maxIters - 1
        · rw [if_pos hc]
        · rw [if_neg hc]
      cases n with
      | zero => simp [runIters]
      | succ m =>
          show (runIters maxIters evalInterval evalIters batchLoss rest
            (trainIter maxIters evalInterval evalIters batchLoss true i).2).get? m
              = _
          rw [hmode, ih m]
          rfl

/-- **C8.** For every iteration `i < maxIters` of the training loop: the
record at index `i` reports a checkpoint exactly when
`i % evalInterval = 0` or `i = maxIters - 1`; the reported values are the
averages over `evalIters` batch losses of the train and val splits, each
batch loss evaluated with `Tensor.training = false` (evaluation mode); and
the training step of every iteration runs with `Tensor.training = true`. -/
theorem trainLoop_spec (maxIters evalInterval evalIters : ℕ)
    (batchLoss : Bool → Split → ℕ → ℝ) (i : ℕ) (hi : i < maxIters) :
    (trainLoop maxIters evalInterval evalIters batchLoss).get? i
      = some ⟨if i % evalInterval = 0 ∨ i = maxIters - 1 then
          some ((((Finset.range evalIters).sum (batchLoss false Split.train))
              / evalIters,
            (((Finset.range evalIters).sum (batchLoss false Split.val)))
              / evalIters))
        else none, true⟩ := by
  have hstep : (trainIter maxIters evalInterval evalIters batchLoss true i).1
      = ⟨if i % evalInterval = 0 ∨ i = maxIters - 1 then
          some ((((Finset.range evalIters).sum (batchLoss false Split.train))
              / evalIters,
            (((Finset.range evalIters).sum (batchLoss false Split.val)))
              / evalIters))
        else none, true⟩ := by
    unfold trainIter estimate_loss
    by_cases hc : i % evalInterval = 0 ∨ i = maxIters - 1
    · rw [if_pos hc, if_pos hc]
    · rw [if_neg hc, if_neg hc]
  unfold trainLoop
  rw [runIters_get?, List.get?_range hi]
  exact congrArg some hstep

/-- Witness for C8 at `maxIters = 3`, `evalInterval = 2`, `evalIters = 1`,
zero loss oracle, iteration `i = 2` (the final iteration, which is also even,
hence a checkpoint). -/
theorem trainLoop_spec_witness :
    2 < 3 ∧ (trainLoop 3 2 1 (fun _ _ _ => (0 : ℝ))).get? 2
      = some ⟨if 2 % 2 = 0 ∨ 2 = 3 - 1 then
          some ((((Finset.range 1).sum ((fun (_ : Bool) (_ : Split) (_ : ℕ) =>
              (0 : ℝ)) false Split.train)) / ((1 : ℕ) : ℝ),
            (((Finset.range 1).sum ((fun (_ : Bool) (_ : Split) (_ : ℕ) =>
              (0 : ℝ)) false Split.val))) / ((1 : ℕ) : ℝ)))
        else none, true⟩ :=
  ⟨by decide, trainLoop_spec 3 2 1 (fun _ _ _ => (0 : ℝ)) 2 (by decide)⟩

/-! ## Autoregressive generation (`GPTLanguageModel.generate`, lines 180-203)

Each step crops the context to its last `block_size` tokens (line 185), runs
the forward pass, keeps only the logits of the final time position
(line 189), softmaxes them (line 191), samples one token per batch row from
the resulting categorical distribution via `np.random.choice` (line 193),
appends the sampled tokens to the context (line 199) and crops again
(line 202).  The context is a list of time slices (`Fin B → ℕ`), the model
is an oracle giving the `(B, T', V)` logits of any context, and the
`np.random.choice` draws are a stream of uniform reals. -/

/-- `l[-n:]` on the time axis: the last `n` elements of `l`. -/
def lastN {α : Type} (n : ℕ) (l : List α) : List α :=
  l.drop (l.length - n)

lemma lastN_length {α : Type} (n : ℕ) (l : List α) :
    (lastN n l).length = min n l.length := by
  unfold lastN
  rw [List.length_drop]
  omega

/-- Modelled from the spec: `np.random.choice(len(p), p=p)` — inverse-CDF
sampling of the categorical distribution `p` at the uniform draw `u`: the
least index whose cumulative probability exceeds `u` (the last index if none
does).  The result is always a valid index of `[0, V)`. -/
noncomputable def sampleChoice {V : ℕ} [NeZero V] (p : Fin V → ℝ) (u : ℝ) :
    Fin V :=
  if h : (Finset.univ.filter
      (fun j => u < ∑ k ∈ Finset.Iic j, p k)).Nonempty then
    (Finset.univ.filter (fun j => u < ∑ k ∈ Finset.Iic j, p k)).min' h
  else ⟨V - 1, by have := NeZero.pos V; omega⟩

/-- One iteration of the generation loop (lines 184-202). -/
noncomputable def generateStep {B V : ℕ} [NeZero V] (blockSize : ℕ)
    (model : List (Fin B → ℕ) → ℕ → Fin B → Fin V → ℝ)
    (u : Fin B → ℝ) (idx : List (Fin B → ℕ)) :
    (Fin B → ℕ) × List (Fin B → ℕ) :=
  let idx_cond := lastN blockSize idx
  let probs : Fin B → Fin V → ℝ :=
    fun b => softmax (model idx_cond (idx_cond.length - 1) b)
  let tok : Fin B → ℕ := fun b => (sampleChoice (probs b) (u b)).val
  (tok, lastN blockSize (idx ++ [tok]))

/-- `generate(idx, max_new_tokens)` (lines 180-203): the list of sampled
time slices (one per new token, each holding the token of every batch row)
together with the final cropped context. -/
noncomputable def generate {B V : ℕ} [NeZero V] (blockSize : ℕ)
    (model : List (Fin B → ℕ) → ℕ → Fin B → Fin V → ℝ)
    (us : ℕ → Fin B → ℝ) (idx : List (Fin B → ℕ)) :
    ℕ → List (Fin B → ℕ) × List (Fin B → ℕ)
  | 0 => ([], idx)
  | n + 1 =>
      let st := generateStep blockSize model (us 0) idx
      let rest := generate blockSize model (fun k => us (k + 1)) st.2 n
      (st.1 :: rest.1, rest.2)

/-- The emitted token stream (line 194: `decode(idx_next[0])` collects the
tokens of batch row `0`). -/
noncomputable def generateOut {B V : ℕ} [NeZero B] [NeZero V] (blockSize : ℕ)
    (model : List (Fin B → ℕ) → ℕ → Fin B → Fin V → ℝ)
    (us : ℕ → Fin B → ℝ) (idx : List (Fin B → ℕ)) (N : ℕ) : List ℕ :=
  ((generate blockSize model us idx N).1).map
    (fun tok => tok ⟨0, NeZero.pos B⟩)

lemma generate_fst_length {B V : ℕ} [NeZero V] (blockSize : ℕ)
    (model : List (Fin B → ℕ) → ℕ → Fin B → Fin V → ℝ)
    (us : ℕ → Fin B → ℝ) (idx : List (Fin B → ℕ)) (N : ℕ) :
    (generate blockSize model us idx N).1.length = N := by
  induction N generalizing us idx with
  | zero => rfl
  | succ n ih =>
      show ((generateStep blockSize model (us 0) idx).1
        :: (generate blockSize model (fun k => us (k + 1))
          (generateStep blockSize model (us 0) idx).2 n).1).length = n + 1
      rw [List.length_cons, ih]

lemma generate_fst_lt {B V : ℕ} [NeZero V] (blockSize : ℕ)
    (model : List (Fin B → ℕ) → ℕ → Fin B → Fin V → ℝ)
    (us : ℕ → Fin B → ℝ) (idx : List (Fin B → ℕ)) (N : ℕ) :
    ∀ tok ∈ (generate blockSize model us idx N).1, ∀ b, tok b < V := by
  induction N generalizing us idx with
  | zero => intro tok h; exact absurd h (by simp [generate])
  | succ n ih =>
      intro tok h b
      rcases List.mem_cons.mp h with h0 | h1
      · subst h0
        exact (sampleChoice _ _).isLt
      · exact ih (fun k => us (k + 1)) _ tok h1 b

lemma generate_snd_length {B V : ℕ} [NeZero V] (blockSize : ℕ)
    (model : List (Fin B → ℕ) → ℕ → Fin B → Fin V → ℝ)
    (us : ℕ → Fin B → ℝ) (idx : List (Fin B → ℕ)) (N : ℕ) :
    (generate blockSize model us idx N).2.length
      = if N = 0 then idx.length else min blockSize (idx.length + N) := by
  induction N generalizing us idx with
  | zero => rfl
  | succ n ih =>
      show (generate blockSize model (fun k => us (k + 1))
        (generateStep blockSize model (us 0) idx).2 n).2.length = _
      rw [ih]
      have hst : (generateStep blockSize model (us 0) idx).2.length
          = min blockSize (idx.length + 1) := by
        show (lastN blockSize (idx ++ [_])).length = _
        rw [lastN_length, List.length_append, List.length_singleton]
      rw [hst]
      rcases Nat.eq_zero_or_pos n with h | h
      · subst h
        norm_num
      · rw [if_neg (Nat.pos_iff_ne_zero.mp h), if_neg (Nat.succ_ne_zero n)]
        omega

/-- **C3.** For every seed context with `T ≥ 1` rows of time slices and
every token count `N`, `generate` emits exactly `N` time slices of sampled
tokens, every sampled token of every batch row is a valid index `< V`, and
the context kept across steps is the last-`blockSize` crop: the final
context has length `min blockSize (T + N)` (for `N ≥ 1`), so it is bounded
by the attention window. -/
theorem generate_spec {B V : ℕ} [NeZero V] (blockSize : ℕ)
    (model : List (Fin B → ℕ) → ℕ → Fin B → Fin V → ℝ)
    (us : ℕ → Fin B → ℝ) (idx : List (Fin B → ℕ)) (N : ℕ)
    (hT : 1 ≤ idx.length) :
    (generate blockSize model us idx N).1.length = N ∧
    (∀ tok ∈ (generate blockSize model us idx N).1, ∀ b, tok b < V) ∧
    (generate blockSize model us idx N).2.length
      = if N = 0 then idx.length else min blockSize (idx.length + N) :=
  ⟨generate_fst_length blockSize model us idx N,
    generate_fst_lt blockSize model us idx N,
    generate_snd_length blockSize model us idx N⟩

/-- Witness for C3: `B = 1`, `V = 2`, `blockSize = 2`, zero-logits model,
zero draws, seed context of length `1`, `N = 3`. -/
theorem generate_spec_witness :
    1 ≤ ([fun _ => 0] : List (Fin 1 → ℕ)).length ∧
      ((generate (B := 1) (V := 2) 2 (fun _ _ _ _ => (0 : ℝ))
          (fun _ _ => (0 : ℝ)) [fun _ => 0] 3).1.length = 3 ∧
        (∀ tok ∈ (generate (B := 1) (V := 2) 2 (fun _ _ _ _ => (0 : ℝ))
          (fun _ _ => (0 : ℝ)) [fun _ => 0] 3).1, ∀ b, tok b < 2) ∧
        (generate (B := 1) (V := 2) 2 (fun _ _ _ _ => (0 : ℝ))
          (fun _ _ => (0 : ℝ)) [fun _ => 0] 3).2.length
            = if 3 = 0 then ([fun _ => 0] : List (Fin 1 → ℕ)).length
              else min 2 (([fun _ => 0] : List (Fin 1 → ℕ)).length + 3)) :=
  ⟨by simp, generate_spec 2 (fun _ _ _ _ => (0 : ℝ)) (fun _ _ => (0 : ℝ))
    [fun _ => 0] 3 (by simp)⟩

/-! ## Seeding and reproducibility (tinygpt.py lines 14, 71, 193)

`Tensor.manual_seed(31337)` (line 14) fixes the tinygrad PRNG that drives
`Tensor.uniform` in `get_batch` (line 71) and the weight initialisation.
The generation step however samples through `np.random.choice` (line 193),
which reads numpy's global RNG — no `np.random.seed` call appears anywhere
in the file, so those draws are not a function of the fixed seed. -/

/-- Modelled from the spec: `Tensor.manual_seed` installs a deterministic
PRNG state, making every subsequent tinygrad draw a pure function of the
seed and the draw index (a linear-congruential model mapped into `[0,1)`). -/
def tinyRand (seed k : ℕ) : ℚ :=
  ((((seed + k) * 1103515245 + 12345) % 2147483648 : ℕ) : ℚ) / 2147483648

/-- `get_batch` as executed in the seeded program: the `call`-th call
consumes draws `call*batchSize .. call*batchSize + batchSize - 1` of the
seeded stream. -/
noncomputable def get_batchSeeded (seed L blockSize batchSize : ℕ)
    (data : ℕ → ℤ) (call : ℕ) :
    (Fin batchSize → Fin blockSize → ℤ) ×
      (Fin batchSize → Fin blockSize → ℤ) :=
  get_batch blockSize data
    (fun i => uniformOffset L blockSize
      ((tinyRand seed (call * batchSize + i.val) : ℚ) : ℝ))

lemma softmax_const_two :
    softmax (fun _ : Fin 2 => (0 : ℝ)) = fun _ => 1 / 2 := by
  funext j
  unfold softmax
  simp [Real.exp_zero]

lemma sampleChoice_half_zero :
    sampleChoice (fun _ : Fin 2 => (1 / 2 : ℝ)) 0 = 0 := by
  have hs : (Finset.univ.filter
      (fun j : Fin 2 => (0 : ℝ) < ∑ k ∈ Finset.Iic j, (1 / 2 : ℝ)))
        = Finset.univ := by
    apply Finset.filter_true_of_mem
    intro j _
    apply Finset.sum_pos (fun k _ => by norm_num)
    exact ⟨j, Finset.mem_Iic.mpr le_rfl⟩
  unfold sampleChoice
  simp only [hs]
  rw [dif_pos Finset.univ_nonempty]
  exact le_antisymm (Finset.min'_le _ _ (Finset.mem_univ 0)) (Fin.zero_le _)

lemma sampleChoice_half_threequarters :
    sampleChoice (fun _ : Fin 2 => (1 / 2 : ℝ)) (3 / 4) = 1 := by
  have hIic0 : Finset.Iic (0 : Fin 2) = {0} := by decide
  have hIic1 : Finset.Iic (1 : Fin 2) = {0, 1} := by decide
  have hs : (Finset.univ.filter
      (fun j : Fin 2 => (3 / 4 : ℝ) < ∑ k ∈ Finset.Iic j, (1 / 2 : ℝ)))
        = {1} := by
    ext j
    simp only [Finset.mem_filter, Finset.mem_univ, true_and,
      Finset.mem_singleton]
    fin_cases j
    · show (3 / 4 : ℝ) < ∑ k ∈ Finset.Iic (0 : Fin 2), (1 / 2 : ℝ)
        ↔ (0 : Fin 2) = 1
      rw [hIic0, Finset.sum_singleton]
      norm_num
    · show (3 / 4 : ℝ) < ∑ k ∈ Finset.Iic (1 : Fin 2), (1 / 2 : ℝ)
        ↔ (1 : Fin 2) = 1
      rw [hIic1]
      norm_num
  unfold sampleChoice
  simp only [hs]
  rw [dif_pos (Finset.singleton_nonempty 1)]
  exact Finset.min'_singleton 1

/-- **C6 counterexample.** With the tinygrad seed (hence the model weights
and the batch stream) held perfectly fixed, two runs of the same generation
call — differing only in the numpy draws of line 193, which
`Tensor.manual_seed` does not govern — emit different token streams. -/
theorem generate_not_seed_reproducible :
    generateOut (B := 1) (V := 2) 1 (fun _ _ _ _ => (0 : ℝ))
        (fun _ _ => (0 : ℝ)) [fun _ => 0] 1
      ≠ generateOut (B := 1) (V := 2) 1 (fun _ _ _ _ => (0 : ℝ))
        (fun _ _ => (3 / 4 : ℝ)) [fun _ => 0] 1 := by
  have h1 : generateOut (B := 1) (V := 2) 1 (fun _ _ _ _ => (0 : ℝ))
      (fun _ _ => (0 : ℝ)) [fun _ => 0] 1 = [(0 : Fin 2).val] := by
    show [(sampleChoice (softmax (fun _ : Fin 2 => (0 : ℝ))) (0 : ℝ)).val]
      = [(0 : Fin 2).val]
    rw [softmax_const_two, sampleChoice_half_zero]
  have h2 : generateOut (B := 1) (V := 2) 1 (fun _ _ _ _ => (0 : ℝ))
      (fun _ _ => (3 / 4 : ℝ)) [fun _ => 0] 1 = [(1 : Fin 2).val] := by
    show [(sampleChoice (softmax (fun _ : Fin 2 => (0 : ℝ))) ((3 : ℝ) / 4)).val]
      = [(1 : Fin 2).val]
    rw [softmax_const_two, sampleChoice_half_threequarters]
  rw [h1, h2]
  simp

/-- **C6 (amended).** Runs are reproducible exactly from their random
sources: under equal seeds the same batch-sampler call sequence produces
identical batches, and under equal numpy draw streams (which the tinygrad
seed does not fix) the same generation call sequence produces an identical
output stream. -/
theorem seeded_runs_agree {B V : ℕ} [NeZero B] [NeZero V]
    (seed1 seed2 L blockSize batchSize : ℕ) (data : ℕ → ℤ)
    (model : List (Fin B → ℕ) → ℕ → Fin B → Fin V → ℝ)
    (us1 us2 : ℕ → Fin B → ℝ) (idx : List (Fin B → ℕ)) (N : ℕ)
    (hseed : seed1 = seed2) (hus : us1 = us2) :
    (∀ call, get_batchSeeded seed1 L blockSize batchSize data call
      = get_batchSeeded seed2 L blockSize batchSize data call) ∧
    generateOut blockSize model us1 idx N
      = generateOut blockSize model us2 idx N := by
  subst hseed
  subst hus
  exact ⟨fun _ => rfl, rfl⟩

/-- Witness for the amended C6 at seed `31337` and a zero draw stream. -/
theorem seeded_runs_agree_witness :
    (31337 = 31337 ∧
      (fun _ : ℕ => fun _ : Fin 1 => (0 : ℝ)) = (fun _ _ => (0 : ℝ))) ∧
    ((∀ call, get_batchSeeded 31337 10 4 1 (fun _ => (0 : ℤ)) call
        = get_batchSeeded 31337 10 4 1 (fun _ => (0 : ℤ)) call) ∧
      generateOut (B := 1) (V := 2) 1 (fun _ _ _ _ => (0 : ℝ))
          (fun _ _ => (0 : ℝ)) [fun _ => 0] 1
        = generateOut (B := 1) (V := 2) 1 (fun _ _ _ _ => (0 : ℝ))
          (fun _ _ => (0 : ℝ)) [fun _ => 0] 1) :=
  ⟨⟨rfl, rfl⟩,
    seeded_runs_agree 31337 31337 10 4 1 (fun _ => (0 : ℤ))
      (fun _ _ _ _ => (0 : ℝ)) (fun _ _ => (0 : ℝ)) (fun _ _ => (0 : ℝ))
      [fun _ => 0] 1 rfl rfl⟩

end TinyGPT
